import Mathlib

/-!
# The base64 sidecar (`examples/modern-vue-plugin/sidecar/main.go`)

A shallow embedding of the sidecar's request handler together with the parts of
the Go standard library that decide its observable behaviour:

* `encoding/base64`: `StdEncoding.EncodeToString` and `StdEncoding.DecodeString`;
* `encoding/json`: the encoder side for a `Response` value (struct field order,
  `omitempty`, string quoting with HTML escaping, trailing newline).

Go strings are byte sequences; they are modelled as lists of bytes.  The outcome
of `json.NewDecoder(os.Stdin).Decode(&req)` is an input of the model: either the
text of the decoder's error or the populated `Request`.
-/

namespace Sidecar

/-- A Go `byte`. -/
abbrev Byte := Fin 256

/-- A Go `string`: an immutable sequence of bytes (not necessarily valid UTF-8). -/
abbrev GoString := List Byte

/-- The bytes of a Go string literal: the UTF-8 encoding of its source text. -/
def utf8 (s : String) : GoString :=
  s.data.flatMap fun c => (String.utf8EncodeChar c).map fun u => Fin.ofNat u.toNat

/-! ## `encoding/base64`, `StdEncoding` (padded, non-strict) -/

namespace base64

/-- The constant `encodeStd`: the standard alphabet, indexed by sextet value. -/
def encodeStd : GoString :=
  utf8 "ABCDEFGHIJKLMNOPQRSTUVWXYZabcdefghijklmnopqrstuvwxyz0123456789+/"

/-- The constant `StdPadding`, the character `=`. -/
def StdPadding : Byte := 61

/-- The table `enc.encode`, read at index `i`. -/
def encode (i : Nat) : Byte := encodeStd.getD i 0

/-- The table `enc.decodeMap`: every entry is `0xff` except that the entry of the
`i`-th alphabet character is `i`. -/
def decodeMap (c : Byte) : Byte :=
  if encodeStd.indexOf c < encodeStd.length then Fin.ofNat (encodeStd.indexOf c) else 0xff

/-- `Encoding.EncodeToString` for `StdEncoding`: whole 3-byte groups first, then
the remaining one or two bytes with padding. -/
def EncodeToString : GoString → GoString
  | [] => []
  | [s0] =>
    let val := s0.val <<< 16
    [encode (val >>> 18 &&& 0x3F), encode (val >>> 12 &&& 0x3F), StdPadding, StdPadding]
  | [s0, s1] =>
    let val := s0.val <<< 16 ||| s1.val <<< 8
    [encode (val >>> 18 &&& 0x3F), encode (val >>> 12 &&& 0x3F),
      encode (val >>> 6 &&& 0x3F), StdPadding]
  | s0 :: s1 :: s2 :: rest =>
    let val := s0.val <<< 16 ||| s1.val <<< 8 ||| s2.val
    [encode (val >>> 18 &&& 0x3F), encode (val >>> 12 &&& 0x3F),
      encode (val >>> 6 &&& 0x3F), encode (val &&& 0x3F)] ++ EncodeToString rest

/-- The error type `CorruptInputError` (an `int64` input offset). -/
structure CorruptInputError where
  pos : Int
  deriving DecidableEq, Repr

/-- `CorruptInputError.Error`: the fixed text followed by the offset in decimal. -/
def CorruptInputError.Error (e : CorruptInputError) : GoString :=
  utf8 "illegal base64 data at input byte " ++ utf8 (toString e.pos)

/-- The result of one call of `decodeQuantum`: the unread input `src[nsi:]`, the new
offset `nsi`, the bytes written `dst[:n]`, and the error if any. -/
structure Quantum where
  rest : GoString
  nsi : Nat
  out : GoString
  err : Option CorruptInputError
  deriving DecidableEq, Repr

/-- The loop `for si < len(src) && (src[si] == '\n' || src[si] == '\r') { si++ }`. -/
def skipNewlines : GoString → Nat → GoString × Nat
  | [], si => ([], si)
  | c :: cs, si => if c = 10 ∨ c = 13 then skipNewlines cs (si + 1) else (c :: cs, si)

/-- The tail of `decodeQuantum`: the sextets in `dbuf` are packed into 24 bits and
the first `dlen - 1` of the three resulting bytes are written. -/
def quantumBytes (dbuf : List Byte) (dlen : Nat) : GoString :=
  let val := (dbuf.getD 0 0).val <<< 18 ||| (dbuf.getD 1 0).val <<< 12
    ||| (dbuf.getD 2 0).val <<< 6 ||| (dbuf.getD 3 0).val
  let b2 : Byte := Fin.ofNat (val >>> 0)
  let b1 : Byte := Fin.ofNat (val >>> 8)
  let b0 : Byte := Fin.ofNat (val >>> 16)
  match dlen with
  | 4 => [b0, b1, b2]
  | 3 => [b0, b1]
  | 2 => [b0]
  | _ => []

/-- The end of the padding branch of `decodeQuantum`: newlines are skipped, anything
left is trailing garbage, and the quantum is finished with `dlen = j`. -/
def finishPadding (cs : GoString) (si j : Nat) (dbuf : List Byte) : Quantum :=
  let p := skipNewlines cs si
  ⟨p.1, p.2, quantumBytes dbuf j, if p.1 = [] then none else some ⟨p.2⟩⟩

/-- The loop `for j := 0; j < len(dbuf); j++` of `decodeQuantum`, entered at
counter `j` with `rest = src[si:]`. -/
def decodeQuantumLoop : GoString → Nat → Nat → List Byte → Quantum
  | [], si, j, dbuf =>
    if 4 ≤ j then ⟨[], si, quantumBytes dbuf 4, none⟩
    else if j = 0 then ⟨[], si, [], none⟩
    else ⟨[], si, [], some ⟨(si : Int) - j⟩⟩
  | c :: cs, si, j, dbuf =>
    if 4 ≤ j then ⟨c :: cs, si, quantumBytes dbuf 4, none⟩
    else
      let si := si + 1
      let out := decodeMap c
      if out ≠ 0xff then decodeQuantumLoop cs si (j + 1) (dbuf.set j out)
      else if c = 10 ∨ c = 13 then decodeQuantumLoop cs si j dbuf
      else if c ≠ StdPadding then ⟨cs, si, [], some ⟨(si : Int) - 1⟩⟩
      else if j = 0 ∨ j = 1 then ⟨cs, si, [], some ⟨(si : Int) - 1⟩⟩
      else if j = 2 then
        let p := skipNewlines cs si
        match p.1 with
        | [] => ⟨[], p.2, [], some ⟨p.2⟩⟩
        | q :: qs =>
          if q ≠ StdPadding then ⟨q :: qs, p.2, [], some ⟨(p.2 : Int) - 1⟩⟩
          else finishPadding qs (p.2 + 1) j dbuf
      else finishPadding cs si j dbuf

/-- `Encoding.decodeQuantum` called at offset `si` with `rest = src[si:]`. -/
def decodeQuantum (rest : GoString) (si : Nat) : Quantum :=
  decodeQuantumLoop rest si 0 [0, 0, 0, 0]

/-- The loop `for si < len(src)` of `Encoding.Decode`, which calls `decodeQuantum`
until the input is used up or an error is returned.  Every call reads at least one
byte, so `len(src)` iterations always suffice; `fuel` bounds the iterations. -/
def decodeLoop : Nat → GoString → Nat → GoString → GoString × Option CorruptInputError
  | _, [], _, dst => (dst, none)
  | 0, _ :: _, _, dst => (dst, none)
  | fuel + 1, c :: cs, si, dst =>
    let q := decodeQuantum (c :: cs) si
    match q.err with
    | some e => (dst ++ q.out, some e)
    | none => decodeLoop fuel q.rest q.nsi (dst ++ q.out)

/-- `Encoding.DecodeString` for `StdEncoding`: the decoded prefix `dbuf[:n]` and the
error.  (The 8- and 4-character fast paths of `Decode` produce what `decodeQuantum`
produces on the same characters and are not modelled separately.) -/
def DecodeString (s : GoString) : GoString × Option CorruptInputError :=
  decodeLoop s.length s 0 []

end base64

/-! ## `unicode/utf8` and `encoding/json`: encoding a `Response` -/

namespace utf8

/-- The constant `RuneError`, U+FFFD. -/
def RuneError : Nat := 0xFFFD

/-- The constant `RuneSelf`: bytes below it are single-byte runes. -/
def RuneSelf : Nat := 0x80

/-- The constant `UTFMax`: the longest encoding of a rune, in bytes. -/
def UTFMax : Nat := 4

/-- The table `first`: information about the first byte of an encoding
(`as = 0xF0` ASCII, `xx = 0xF1` invalid, otherwise accept-range index and size). -/
def first (b : Byte) : Nat :=
  if b.val < 0x80 then 0xF0
  else if b.val < 0xC2 then 0xF1
  else if b.val < 0xE0 then 0x02
  else if b.val = 0xE0 then 0x13
  else if b.val < 0xED then 0x03
  else if b.val = 0xED then 0x23
  else if b.val < 0xF0 then 0x03
  else if b.val = 0xF0 then 0x34
  else if b.val < 0xF4 then 0x04
  else if b.val = 0xF4 then 0x44
  else 0xF1

/-- The table `acceptRanges`: the allowed range `(lo, hi)` of the second byte. -/
def acceptRanges (i : Nat) : Nat × Nat :=
  match i with
  | 0 => (0x80, 0xBF)
  | 1 => (0xA0, 0xBF)
  | 2 => (0x80, 0x9F)
  | 3 => (0x90, 0xBF)
  | 4 => (0x80, 0x8F)
  | _ => (0, 0)

/-- `utf8.DecodeRuneInString`: the first rune of `s` and its width in bytes;
`(RuneError, 1)` for an invalid encoding and `(RuneError, 0)` for the empty string. -/
def DecodeRuneInString (s : GoString) : Nat × Nat :=
  match s with
  | [] => (RuneError, 0)
  | s0 :: t =>
    let x := first s0
    if 0xF0 ≤ x then
      (if x % 2 = 0 then s0.val else RuneError, 1)
    else
      let sz := x &&& 7
      let accept := acceptRanges (x >>> 4)
      if s.length < sz then (RuneError, 1)
      else
        match t with
        | [] => (RuneError, 1)
        | s1 :: t1 =>
          if s1.val < accept.1 ∨ accept.2 < s1.val then (RuneError, 1)
          else if sz ≤ 2 then ((s0.val &&& 0x1F) <<< 6 ||| (s1.val &&& 0x3F), 2)
          else
            match t1 with
            | [] => (RuneError, 1)
            | s2 :: t2 =>
              if s2.val < 0x80 ∨ 0xBF < s2.val then (RuneError, 1)
              else if sz ≤ 3 then
                ((s0.val &&& 0x0F) <<< 12 ||| (s1.val &&& 0x3F) <<< 6 ||| (s2.val &&& 0x3F), 3)
              else
                match t2 with
                | [] => (RuneError, 1)
                | s3 :: _ =>
                  if s3.val < 0x80 ∨ 0xBF < s3.val then (RuneError, 1)
                  else
                    ((s0.val &&& 0x07) <<< 18 ||| (s1.val &&& 0x3F) <<< 12
                      ||| (s2.val &&& 0x3F) <<< 6 ||| (s3.val &&& 0x3F), 4)

end utf8

namespace json

/-- The constant `hex`, the lower-case hexadecimal digits. -/
def hex : GoString := utf8 "0123456789abcdef"

/-- The table `htmlSafeSet`: the ASCII bytes written without escaping when HTML
escaping is on, that is 0x20..0x7f except the double quote, `&`, `<`, `>` and the
backslash. -/
def htmlSafeSet (b : Byte) : Bool :=
  decide (0x20 ≤ b.val ∧ b.val < 0x80 ∧ b.val ≠ 0x22 ∧ b.val ≠ 0x26 ∧ b.val ≠ 0x3C
    ∧ b.val ≠ 0x3E ∧ b.val ≠ 0x5C)

/-- The `switch b` of `appendString` for an ASCII byte outside `htmlSafeSet`
(Go 1.22 and later, where backspace and form feed have short escapes). -/
def escapeByte (b : Byte) : GoString :=
  if b.val = 0x5C ∨ b.val = 0x22 then [0x5C, b]
  else if b.val = 0x08 then [0x5C, 0x62]
  else if b.val = 0x0C then [0x5C, 0x66]
  else if b.val = 0x0A then [0x5C, 0x6E]
  else if b.val = 0x0D then [0x5C, 0x72]
  else if b.val = 0x09 then [0x5C, 0x74]
  else [0x5C, 0x75, 0x30, 0x30, hex.getD (b.val >>> 4) 0, hex.getD (b.val &&& 0xF) 0]

/-- The loop of `appendString` with HTML escaping.  `pending` counts the bytes of the
current multi-byte rune that are still to be passed over; they are copied when
`keep` is true (a valid rune) and dropped when it is false (U+2028 and U+2029, which
were replaced by an escape). -/
def appendStringLoop : GoString → Nat → Bool → GoString
  | [], _, _ => []
  | b :: bs, pending + 1, keep =>
    if keep then b :: appendStringLoop bs pending keep else appendStringLoop bs pending keep
  | b :: bs, 0, _ =>
    if b.val < utf8.RuneSelf then
      if htmlSafeSet b then b :: appendStringLoop bs 0 true
      else escapeByte b ++ appendStringLoop bs 0 true
    else
      let r := utf8.DecodeRuneInString ((b :: bs).take utf8.UTFMax)
      if r.1 = utf8.RuneError ∧ r.2 = 1 then
        Sidecar.utf8 "\\ufffd" ++ appendStringLoop bs 0 true
      else if r.1 = 0x2028 ∨ r.1 = 0x2029 then
        Sidecar.utf8 "\\u202" ++ [hex.getD (r.1 &&& 0xF) 0] ++ appendStringLoop bs (r.2 - 1) false
      else b :: appendStringLoop bs (r.2 - 1) true

/-- `appendString(dst, src, escapeHTML = true)`: `src` as a quoted JSON string. -/
def appendString (dst src : GoString) : GoString :=
  dst ++ [0x22] ++ appendStringLoop src 0 true ++ [0x22]

end json

/-! ## The program: `Request`, `Response`, `main`, `sendSuccess`, `sendError` -/

/-- `type Request struct`, with JSON keys `action` and `data`. -/
structure Request where
  Action : GoString
  Data : GoString
  deriving DecidableEq, Repr

/-- `type Response struct`, with tags `json:"success"`, `json:"result"` and
`json:"error,omitempty"`. -/
structure Response where
  Success : Bool
  Result : GoString
  Error : GoString
  deriving DecidableEq, Repr

namespace json

/-- The value of a struct field as the encoder sees it. -/
inductive Value where
  | bool (b : Bool)
  | string (s : GoString)
  deriving DecidableEq, Repr

/-- One entry of the encoder's field list: the key, the `omitempty` option and the
field's value. -/
structure Field where
  key : String
  omitEmpty : Bool
  value : Value
  deriving DecidableEq, Repr

/-- The fields of `Response` in declaration order, with the options of their tags:
only `Error` carries `omitempty`. -/
def fields (r : Response) : List Field :=
  [⟨"success", false, .bool r.Success⟩,
   ⟨"result", false, .string r.Result⟩,
   ⟨"error", true, .string r.Error⟩]

/-- `isEmptyValue`: `false` for a bool, the empty string for a string. -/
def isEmptyValue : Value → Bool
  | .bool b => !b
  | .string s => s.isEmpty

/-- The encoder of a field value: `true`/`false`, or the quoted string. -/
def encodeValue : Value → GoString
  | .bool b => if b then Sidecar.utf8 "true" else Sidecar.utf8 "false"
  | .string s => appendString [] s

/-- The fields that `structEncoder.encode` writes: those not skipped by
`f.omitEmpty && isEmptyValue(fv)`. -/
def emitted (r : Response) : List Field :=
  (fields r).filter fun f => !(f.omitEmpty && isEmptyValue f.value)

/-- The keys present in the serialized form of `r`, in order. -/
def keys (r : Response) : List String := (emitted r).map Field.key

/-- The loop of `structEncoder.encode`: before each written field the byte `next`
(an opening brace first, a comma afterwards), then the quoted key with a colon, then
the value; the second component is the final `next`. -/
def encodeFields : List Field → Byte → GoString × Byte
  | [], next => ([], next)
  | f :: fs, next =>
    let r := encodeFields fs 0x2C
    (next :: (Sidecar.utf8 "\"" ++ Sidecar.utf8 f.key ++ Sidecar.utf8 "\":"
      ++ encodeValue f.value) ++ r.1, r.2)

/-- `json.Marshal` of a `Response`: the written fields between braces. -/
def Marshal (r : Response) : GoString :=
  let p := encodeFields (emitted r) 0x7B
  if p.2 = 0x7B then Sidecar.utf8 "\x7b\x7d" else p.1 ++ [0x7D]

/-- `(*json.Encoder).Encode`: the marshalled value followed by a newline, written
to the stream in one write. -/
def Encode (r : Response) : GoString := Marshal r ++ [0x0A]

end json

/-- The process's standard output, as the sequence of values handed to
`json.NewEncoder(os.Stdout).Encode`, one entry per call. -/
abbrev Stdout := List Response

/-- The bytes on standard output: the encodings of the written values, in order. -/
def stdoutBytes (out : Stdout) : GoString := (out.map json.Encode).flatten

/-- `sendSuccess`: encodes `Response{Success: true, Result: result}` to stdout. -/
def sendSuccess (result : GoString) (out : Stdout) : Stdout :=
  out ++ [{ Success := true, Result := result, Error := [] }]

/-- `sendError`: encodes `Response{Success: false, Error: errMsg}` to stdout. -/
def sendError (errMsg : GoString) (out : Stdout) : Stdout :=
  out ++ [{ Success := false, Result := [], Error := errMsg }]

/-- The outcome of the `switch req.Action`: the default branch has already sent its
error and returns; the other branches leave `result` and `err` set. -/
inductive Dispatch where
  | returned (out : Stdout)
  | values (result : GoString) (err : Option base64.CorruptInputError)

/-- The `switch req.Action` statement of `main`. -/
def dispatch (req : Request) (out : Stdout) : Dispatch :=
  if req.Action = utf8 "base64_encode" then
    .values (base64.EncodeToString req.Data) none
  else if req.Action = utf8 "base64_decode" then
    match base64.DecodeString req.Data with
    | (_, some e) => .values [] (some e)
    | (decoded, none) => .values decoded none
  else
    .returned (sendError (utf8 "未知操作: " ++ req.Action) out)

/-- The function `main`.  `decoded` is the outcome of `decoder.Decode(&req)` on
standard input: the text of its error, or the populated request.  The result is
standard output after the run, starting from `out`. -/
def main (decoded : Except GoString Request) (out : Stdout) : Stdout :=
  match decoded with
  | .error err => sendError (utf8 "解析请求失败: " ++ err) out
  | .ok req =>
    match dispatch req out with
    | .returned out1 => out1
    | .values _ (some err) => sendError err.Error out
    | .values result none => sendSuccess result out

end Sidecar

namespace Sidecar

/-! ## Reference notions of the specification -/

namespace rfc4648

/-- The base64 alphabet of RFC 4648, Table 1, by value: `A`-`Z` for 0..25, `a`-`z`
for 26..51, `0`-`9` for 52..61, `+` for 62 and `/` for 63. -/
def alphabetChar (v : Nat) : Byte :=
  if v < 26 then Fin.ofNat (65 + v)
  else if v < 52 then Fin.ofNat (97 + (v - 26))
  else if v < 62 then Fin.ofNat (48 + (v - 52))
  else if v = 62 then 43
  else 47

/-- Membership in the alphabet `A`-`Z`, `a`-`z`, `0`-`9`, `+`, `/`. -/
def inAlphabet (c : Byte) : Bool :=
  decide ((65 ≤ c.val ∧ c.val ≤ 90) ∨ (97 ≤ c.val ∧ c.val ≤ 122) ∨ (48 ≤ c.val ∧ c.val ≤ 57)
    ∨ c.val = 43 ∨ c.val = 47)

/-- The reference encoding of RFC 4648 section 4: each group of three bytes is a
24-bit number written as four 6-bit digits; a final group of one byte (8 bits, padded
with four zero bits) gives two digits and `==`; a final group of two bytes (16 bits,
padded with two zero bits) gives three digits and `=`. -/
def encode : GoString → GoString
  | [] => []
  | [a] =>
    let n := a.val * 16
    [alphabetChar (n / 64), alphabetChar (n % 64), 61, 61]
  | [a, b] =>
    let n := (a.val * 256 + b.val) * 4
    [alphabetChar (n / 4096), alphabetChar (n / 64 % 64), alphabetChar (n % 64), 61]
  | a :: b :: c :: rest =>
    let n := a.val * 65536 + b.val * 256 + c.val
    [alphabetChar (n / 262144), alphabetChar (n / 4096 % 64), alphabetChar (n / 64 % 64),
      alphabetChar (n % 64)] ++ encode rest

/-- The padding is wrong when some `=` is followed by anything other than the end
of the text or one final `=`. -/
def paddingWrong : GoString → Bool
  | [] => false
  | c :: cs => (c = 61 && cs ≠ [] && cs ≠ [61]) || paddingWrong cs

/-- The text is not valid padded standard base64: it has a character outside the
alphabet and `=`, or its length is not a multiple of 4, or its padding is wrong. -/
def invalid (s : GoString) : Bool :=
  s.any (fun c => !inAlphabet c && c ≠ 61) || s.length % 4 ≠ 0 || paddingWrong s

end rfc4648

/-- The text without its carriage returns and line feeds, which the decoder
passes over. -/
def stripNewlines (s : GoString) : GoString := s.filter fun c => !decide (c = 10 ∨ c = 13)

namespace base64

/-- The shape of an accepted text after the first `j` characters of a quantum: only
alphabet characters and `=`, a length that completes the quantum, and no wrong
padding. -/
def Shape (t : GoString) (j : Nat) : Prop :=
  (∀ c ∈ t, rfc4648.inAlphabet c = true ∨ c = 61) ∧ (j + t.length) % 4 = 0
    ∧ rfc4648.paddingWrong t = false

end base64

end Sidecar

namespace Sidecar
namespace base64

/-! ## Arithmetic of the bit operations -/

theorem shl_or_eq_add (a b k : Nat) (hb : b < 2 ^ k) : a <<< k ||| b = a * 2 ^ k + b := by
  rw [Nat.shiftLeft_eq, Nat.mul_comm a, ← Nat.mul_add_lt_is_or hb]

theorem and63 (x : Nat) : x &&& 0x3F = x % 64 := Nat.and_pow_two_sub_one_eq_mod x 6

theorem and15 (x : Nat) : x &&& 0xF = x % 16 := Nat.and_pow_two_sub_one_eq_mod x 4

/-- The 24-bit value of a full input group. -/
theorem val3 (a b c : Nat) (hb : b < 256) (hc : c < 256) :
    a <<< 16 ||| b <<< 8 ||| c = a * 65536 + b * 256 + c := by
  have h1 : b <<< 8 ||| c = b * 2 ^ 8 + c := shl_or_eq_add b c 8 (by omega)
  rw [Nat.or_assoc, h1, shl_or_eq_add a _ 16 (by omega)]
  omega

theorem val2 (a b : Nat) (hb : b < 256) :
    a <<< 16 ||| b <<< 8 = a * 65536 + b * 256 := by
  have h := val3 a b 0 hb (by omega)
  simpa using h

/-- The 24-bit value assembled from four sextets. -/
theorem val4 (a b c d : Nat) (hb : b < 64) (hc : c < 64) (hd : d < 64) :
    a <<< 18 ||| b <<< 12 ||| c <<< 6 ||| d = a * 262144 + b * 4096 + c * 64 + d := by
  have h1 : c <<< 6 ||| d = c * 2 ^ 6 + d := shl_or_eq_add c d 6 (by omega)
  have h2 : b <<< 12 ||| (c <<< 6 ||| d) = b * 2 ^ 12 + (c * 2 ^ 6 + d) := by
    rw [h1]; exact shl_or_eq_add b _ 12 (by omega)
  rw [Nat.or_assoc, Nat.or_assoc, h2, shl_or_eq_add a _ 18 (by omega)]
  omega

end base64
end Sidecar

namespace Sidecar
namespace base64

/-! ## The alphabet tables -/

set_option maxRecDepth 100000 in
theorem decodeMap_encode (i : Nat) (h : i < 64) :
    decodeMap (encode i) ≠ 0xff ∧ (decodeMap (encode i)).val = i := by
  have key : ∀ k : Fin 64,
      decodeMap (encode k.val) ≠ 0xff ∧ (decodeMap (encode k.val)).val = k.val := by decide
  exact key ⟨i, h⟩

theorem ofNat_eq_byte (x : Nat) (a : Byte) (h : x % 256 = a.val) : (Fin.ofNat x : Byte) = a := by
  apply Fin.ext
  simpa [Fin.ofNat] using h

/-! ## One quantum -/

theorem decodeQuantumLoop_four (rest : GoString) (si : Nat) (dbuf : List Byte) :
    decodeQuantumLoop rest si 4 dbuf = ⟨rest, si, quantumBytes dbuf 4, none⟩ := by
  cases rest <;> simp [decodeQuantumLoop]

theorem decodeQuantumLoop_sextet (c : Byte) (cs : GoString) (si j : Nat) (dbuf : List Byte)
    (hj : j < 4) (hc : decodeMap c ≠ 0xff) :
    decodeQuantumLoop (c :: cs) si j dbuf
      = decodeQuantumLoop cs (si + 1) (j + 1) (dbuf.set j (decodeMap c)) := by
  rw [decodeQuantumLoop]
  simp [Nat.not_le.mpr hj, hc]

/-- The three bytes recovered from the four sextets of a full group. -/
theorem quantumBytes_group (a b c : Byte) (d0 d1 d2 d3 : Byte)
    (h0 : d0.val = a.val / 4) (h1 : d1.val = a.val % 4 * 16 + b.val / 16)
    (h2 : d2.val = b.val % 16 * 4 + c.val / 64) (h3 : d3.val = c.val % 64) :
    quantumBytes [d0, d1, d2, d3] 4 = [a, b, c] := by
  have ha := a.isLt
  have hb := b.isLt
  have hc := c.isLt
  simp only [quantumBytes, List.getD_cons_zero, List.getD_cons_succ]
  rw [val4 _ _ _ _ (by omega) (by omega) (by omega)]
  simp only [Nat.shiftRight_eq_div_pow]
  congr 1
  · apply ofNat_eq_byte; omega
  · congr 1
    · apply ofNat_eq_byte; omega
    · congr 1
      apply ofNat_eq_byte; omega

end base64
end Sidecar

namespace Sidecar
namespace base64

theorem quantumBytes_two (a : Byte) (d0 d1 : Byte)
    (h0 : d0.val = a.val / 4) (h1 : d1.val = a.val % 4 * 16) :
    quantumBytes [d0, d1, 0, 0] 2 = [a] := by
  have ha := a.isLt
  simp only [quantumBytes, List.getD_cons_zero, List.getD_cons_succ]
  rw [val4 _ _ _ _ (by omega) (by simp) (by simp)]
  simp only [Nat.shiftRight_eq_div_pow]
  congr 1
  apply ofNat_eq_byte
  simp
  omega

theorem quantumBytes_three (a b : Byte) (d0 d1 d2 : Byte)
    (h0 : d0.val = a.val / 4) (h1 : d1.val = a.val % 4 * 16 + b.val / 16)
    (h2 : d2.val = b.val % 16 * 4) :
    quantumBytes [d0, d1, d2, 0] 3 = [a, b] := by
  have ha := a.isLt
  have hb := b.isLt
  simp only [quantumBytes, List.getD_cons_zero, List.getD_cons_succ]
  rw [val4 _ _ _ _ (by omega) (by omega) (by simp)]
  simp only [Nat.shiftRight_eq_div_pow]
  congr 1
  · apply ofNat_eq_byte; simp; omega
  · congr 1
    apply ofNat_eq_byte; simp; omega

/-- The four sextets of a full group, as the encoder computes them. -/
theorem sextets3 (a b c : Byte) :
    ((a.val <<< 16 ||| b.val <<< 8 ||| c.val) >>> 18 &&& 0x3F = a.val / 4)
    ∧ ((a.val <<< 16 ||| b.val <<< 8 ||| c.val) >>> 12 &&& 0x3F = a.val % 4 * 16 + b.val / 16)
    ∧ ((a.val <<< 16 ||| b.val <<< 8 ||| c.val) >>> 6 &&& 0x3F = b.val % 16 * 4 + c.val / 64)
    ∧ ((a.val <<< 16 ||| b.val <<< 8 ||| c.val) &&& 0x3F = c.val % 64) := by
  have ha := a.isLt
  have hb := b.isLt
  have hc := c.isLt
  rw [val3 _ _ _ hb hc]
  simp only [and63, Nat.shiftRight_eq_div_pow]
  refine ⟨?_, ?_, ?_, ?_⟩ <;> omega

theorem sextets2 (a b : Byte) :
    ((a.val <<< 16 ||| b.val <<< 8) >>> 18 &&& 0x3F = a.val / 4)
    ∧ ((a.val <<< 16 ||| b.val <<< 8) >>> 12 &&& 0x3F = a.val % 4 * 16 + b.val / 16)
    ∧ ((a.val <<< 16 ||| b.val <<< 8) >>> 6 &&& 0x3F = b.val % 16 * 4) := by
  have ha := a.isLt
  have hb := b.isLt
  rw [val2 _ _ hb]
  simp only [and63, Nat.shiftRight_eq_div_pow]
  refine ⟨?_, ?_, ?_⟩ <;> omega

theorem sextets1 (a : Byte) :
    ((a.val <<< 16) >>> 18 &&& 0x3F = a.val / 4)
    ∧ ((a.val <<< 16) >>> 12 &&& 0x3F = a.val % 4 * 16) := by
  have ha := a.isLt
  simp only [and63, Nat.shiftRight_eq_div_pow, Nat.shiftLeft_eq]
  refine ⟨?_, ?_⟩ <;> omega

theorem decodeMap_padding : decodeMap StdPadding = 0xff := by decide

/-- A quantum of four alphabet characters decodes to three bytes. -/
theorem decodeQuantum_sextets (d0 d1 d2 d3 : Nat) (h0 : d0 < 64) (h1 : d1 < 64) (h2 : d2 < 64)
    (h3 : d3 < 64) (rest : GoString) (si : Nat) :
    decodeQuantum (encode d0 :: encode d1 :: encode d2 :: encode d3 :: rest) si
      = ⟨rest, si + 4, quantumBytes [decodeMap (encode d0), decodeMap (encode d1),
          decodeMap (encode d2), decodeMap (encode d3)] 4, none⟩ := by
  unfold decodeQuantum
  rw [decodeQuantumLoop_sextet _ _ _ _ _ (by omega) (decodeMap_encode d0 h0).1,
    decodeQuantumLoop_sextet _ _ _ _ _ (by omega) (decodeMap_encode d1 h1).1,
    decodeQuantumLoop_sextet _ _ _ _ _ (by omega) (decodeMap_encode d2 h2).1,
    decodeQuantumLoop_sextet _ _ _ _ _ (by omega) (decodeMap_encode d3 h3).1,
    decodeQuantumLoop_four]
  rfl

/-- A final quantum of three alphabet characters and one `=` decodes to two bytes. -/
theorem decodeQuantum_pad1 (d0 d1 d2 : Nat) (h0 : d0 < 64) (h1 : d1 < 64) (h2 : d2 < 64)
    (si : Nat) :
    decodeQuantum [encode d0, encode d1, encode d2, StdPadding] si
      = ⟨[], si + 4, quantumBytes [decodeMap (encode d0), decodeMap (encode d1),
          decodeMap (encode d2), 0] 3, none⟩ := by
  unfold decodeQuantum
  rw [decodeQuantumLoop_sextet _ _ _ _ _ (by omega) (decodeMap_encode d0 h0).1,
    decodeQuantumLoop_sextet _ _ _ _ _ (by omega) (decodeMap_encode d1 h1).1,
    decodeQuantumLoop_sextet _ _ _ _ _ (by omega) (decodeMap_encode d2 h2).1]
  have p10 : StdPadding ≠ 10 := by decide
  have p13 : StdPadding ≠ 13 := by decide
  simp [decodeQuantumLoop, decodeMap_padding, finishPadding, skipNewlines, p10, p13]

/-- A final quantum of two alphabet characters and `==` decodes to one byte. -/
theorem decodeQuantum_pad2 (d0 d1 : Nat) (h0 : d0 < 64) (h1 : d1 < 64) (si : Nat) :
    decodeQuantum [encode d0, encode d1, StdPadding, StdPadding] si
      = ⟨[], si + 4, quantumBytes [decodeMap (encode d0), decodeMap (encode d1), 0, 0] 2,
          none⟩ := by
  unfold decodeQuantum
  rw [decodeQuantumLoop_sextet _ _ _ _ _ (by omega) (decodeMap_encode d0 h0).1,
    decodeQuantumLoop_sextet _ _ _ _ _ (by omega) (decodeMap_encode d1 h1).1]
  have p10 : StdPadding ≠ 10 := by decide
  have p13 : StdPadding ≠ 13 := by decide
  simp [decodeQuantumLoop, decodeMap_padding, finishPadding, skipNewlines, p10, p13]

end base64
end Sidecar

namespace Sidecar
namespace base64

theorem sextet_lt (x : Nat) : x &&& 0x3F < 64 := by
  rw [and63]; omega

/-- Decoding the encoding of `b` appends exactly `b`, whenever the iteration bound
is at least the length of the encoded text. -/
theorem decodeLoop_EncodeToString (b : GoString) :
    ∀ (fuel si : Nat) (dst : GoString), (EncodeToString b).length ≤ fuel →
      decodeLoop fuel (EncodeToString b) si dst = (dst ++ b, none) := by
  induction b using EncodeToString.induct with
  | case1 => intro fuel si dst _; simp [EncodeToString, decodeLoop]
  | case2 s0 =>
    intro fuel si dst h
    obtain ⟨f, rfl⟩ : ∃ f, fuel = f + 1 := ⟨fuel - 1, by simp [EncodeToString] at h; omega⟩
    have hs := sextets1 s0
    simp only [EncodeToString, decodeLoop]
    rw [decodeQuantum_pad2 _ _ (sextet_lt _) (sextet_lt _)]
    simp only [decodeLoop]
    rw [quantumBytes_two s0 _ _
      (by rw [(decodeMap_encode _ (sextet_lt _)).2]; exact hs.1)
      (by rw [(decodeMap_encode _ (sextet_lt _)).2]; exact hs.2)]
  | case3 s0 s1 =>
    intro fuel si dst h
    obtain ⟨f, rfl⟩ : ∃ f, fuel = f + 1 := ⟨fuel - 1, by simp [EncodeToString] at h; omega⟩
    have hs := sextets2 s0 s1
    simp only [EncodeToString, decodeLoop]
    rw [decodeQuantum_pad1 _ _ _ (sextet_lt _) (sextet_lt _) (sextet_lt _)]
    simp only [decodeLoop]
    rw [quantumBytes_three s0 s1 _ _ _
      (by rw [(decodeMap_encode _ (sextet_lt _)).2]; exact hs.1)
      (by rw [(decodeMap_encode _ (sextet_lt _)).2]; exact hs.2.1)
      (by rw [(decodeMap_encode _ (sextet_lt _)).2]; exact hs.2.2)]
  | case4 s0 s1 s2 rest ih =>
    intro fuel si dst h
    obtain ⟨f, rfl⟩ : ∃ f, fuel = f + 1 := ⟨fuel - 1, by simp [EncodeToString] at h; omega⟩
    have hs := sextets3 s0 s1 s2
    have e : EncodeToString (s0 :: s1 :: s2 :: rest)
        = encode ((s0.val <<< 16 ||| s1.val <<< 8 ||| s2.val) >>> 18 &&& 0x3F)
          :: encode ((s0.val <<< 16 ||| s1.val <<< 8 ||| s2.val) >>> 12 &&& 0x3F)
          :: encode ((s0.val <<< 16 ||| s1.val <<< 8 ||| s2.val) >>> 6 &&& 0x3F)
          :: encode ((s0.val <<< 16 ||| s1.val <<< 8 ||| s2.val) &&& 0x3F)
          :: EncodeToString rest := rfl
    rw [e] at h ⊢
    simp only [decodeLoop]
    rw [decodeQuantum_sextets _ _ _ _ (sextet_lt _) (sextet_lt _) (sextet_lt _) (sextet_lt _)]
    simp only []
    rw [quantumBytes_group s0 s1 s2 _ _ _ _
      (by rw [(decodeMap_encode _ (sextet_lt _)).2]; exact hs.1)
      (by rw [(decodeMap_encode _ (sextet_lt _)).2]; exact hs.2.1)
      (by rw [(decodeMap_encode _ (sextet_lt _)).2]; exact hs.2.2.1)
      (by rw [(decodeMap_encode _ (sextet_lt _)).2]; exact hs.2.2.2)]
    rw [ih f (si + 4) (dst ++ [s0, s1, s2])
      (by simp at h; omega)]
    simp

/-- Round trip of the library calls: decoding an encoding returns the input, without
error. -/
theorem DecodeString_EncodeToString (b : GoString) :
    DecodeString (EncodeToString b) = (b, none) := by
  have h := decodeLoop_EncodeToString b (EncodeToString b).length 0 [] (Nat.le_refl _)
  simpa [DecodeString] using h

/-- The length of the encoding is `(n + 2) / 3 * 4`, four characters for each
started group of three bytes. -/
theorem EncodeToString_length (b : GoString) :
    (EncodeToString b).length = 4 * ((b.length + 2) / 3) := by
  induction b using EncodeToString.induct with
  | case1 => simp [EncodeToString]
  | case2 s0 => simp [EncodeToString]
  | case3 s0 s1 => simp [EncodeToString]
  | case4 s0 s1 s2 rest ih =>
    have e : EncodeToString (s0 :: s1 :: s2 :: rest)
        = encode ((s0.val <<< 16 ||| s1.val <<< 8 ||| s2.val) >>> 18 &&& 0x3F)
          :: encode ((s0.val <<< 16 ||| s1.val <<< 8 ||| s2.val) >>> 12 &&& 0x3F)
          :: encode ((s0.val <<< 16 ||| s1.val <<< 8 ||| s2.val) >>> 6 &&& 0x3F)
          :: encode ((s0.val <<< 16 ||| s1.val <<< 8 ||| s2.val) &&& 0x3F)
          :: EncodeToString rest := rfl
    rw [e]
    simp only [List.length_cons, ih]
    omega

end base64
end Sidecar

namespace Sidecar
namespace base64

/-! ## What the decoder accepts -/

set_option maxRecDepth 100000 in
theorem decodeMap_ne_iff (c : Byte) : decodeMap c ≠ 0xff ↔ rfc4648.inAlphabet c = true := by
  revert c; decide

theorem stripNewlines_cons (c : Byte) (cs : GoString) :
    stripNewlines (c :: cs)
      = if c = 10 ∨ c = 13 then stripNewlines cs else c :: stripNewlines cs := by
  by_cases h : c = 10 ∨ c = 13
  · simp only [stripNewlines, List.filter_cons, h, decide_True, Bool.not_true, if_true]
    simp
  · simp only [stripNewlines, List.filter_cons, h, decide_False, Bool.not_false, if_true,
      if_false]

theorem skipNewlines_strip (cs : GoString) (si : Nat) :
    stripNewlines (skipNewlines cs si).1 = stripNewlines cs := by
  induction cs generalizing si with
  | nil => rfl
  | cons c cs ih =>
    by_cases h : c = 10 ∨ c = 13
    · rw [stripNewlines_cons, if_pos h, skipNewlines, if_pos h]
      exact ih (si + 1)
    · rw [skipNewlines, if_neg h]

theorem skipNewlines_head (cs : GoString) (si : Nat) (q : Byte) (qs : GoString)
    (h : (skipNewlines cs si).1 = q :: qs) : ¬ (q = 10 ∨ q = 13) := by
  induction cs generalizing si with
  | nil => simp [skipNewlines] at h
  | cons c cs ih =>
    by_cases hc : c = 10 ∨ c = 13
    · simp only [skipNewlines, hc, if_true] at h
      exact ih (si + 1) h
    · simp only [skipNewlines, hc, if_false] at h
      cases h
      exact hc

theorem decodeLoop_step (fuel : Nat) (c : Byte) (cs : GoString) (si : Nat) (dst : GoString)
    (h : (decodeLoop (fuel + 1) (c :: cs) si dst).2 = none) :
    (decodeQuantum (c :: cs) si).err = none
      ∧ (decodeLoop fuel (decodeQuantum (c :: cs) si).rest (decodeQuantum (c :: cs) si).nsi
          (dst ++ (decodeQuantum (c :: cs) si).out)).2 = none := by
  rw [decodeLoop] at h
  cases hq : (decodeQuantum (c :: cs) si).err with
  | some e => simp [hq] at h
  | none => simpa [hq] using h

end base64
end Sidecar

namespace Sidecar
namespace base64

set_option maxRecDepth 100000 in
theorem inAlphabet_not_special (c : Byte) (h : rfc4648.inAlphabet c = true) :
    ¬ (c = 10 ∨ c = 13) ∧ c ≠ 61 := by
  revert c; decide

theorem decodeMap_newline (c : Byte) (h : c = 10 ∨ c = 13) : decodeMap c = 0xff := by
  rcases h with rfl | rfl <;> decide

theorem decodeQuantumLoop_newline (c : Byte) (cs : GoString) (si j : Nat) (dbuf : List Byte)
    (hj : j < 4) (hc : c = 10 ∨ c = 13) :
    decodeQuantumLoop (c :: cs) si j dbuf = decodeQuantumLoop cs (si + 1) j dbuf := by
  rw [decodeQuantumLoop]
  simp [Nat.not_le.mpr hj, decodeMap_newline c hc, hc]

/-- The error of a quantum whose next character is neither in the alphabet nor a
newline: only `=` at position 2 or 3 of the quantum can be accepted. -/
theorem decodeQuantumLoop_other (c : Byte) (cs : GoString) (si j : Nat) (dbuf : List Byte)
    (hj : j < 4) (hm : decodeMap c = 0xff) (hn : ¬ (c = 10 ∨ c = 13))
    (herr : (decodeQuantumLoop (c :: cs) si j dbuf).err = none) :
    c = 61 ∧ (decodeQuantumLoop (c :: cs) si j dbuf).rest = []
      ∧ ((j = 2 ∧ stripNewlines cs = [61]) ∨ (j = 3 ∧ stripNewlines cs = [])) := by
  rw [decodeQuantumLoop] at herr ⊢
  simp only [Nat.not_le.mpr hj, if_false, hm, ne_eq, not_true_eq_false, hn] at herr ⊢
  by_cases hp : c = StdPadding
  · simp only [hp, not_true_eq_false, if_false] at herr ⊢
    by_cases h01 : j = 0 ∨ j = 1
    · simp [h01] at herr
    · simp only [h01, if_false] at herr ⊢
      by_cases h2 : j = 2
      · simp only [h2, if_true] at herr ⊢
        cases hs : (skipNewlines cs (si + 1)).1 with
        | nil => simp [hs] at herr
        | cons q qs =>
          simp only [hs] at herr ⊢
          by_cases hq : q = StdPadding
          · simp only [hq, not_true_eq_false, if_false, finishPadding] at herr ⊢
            have hnil : (skipNewlines qs ((skipNewlines cs (si + 1)).2 + 1)).1 = [] := by
              by_contra hne
              simp [hne] at herr
            refine ⟨rfl, hnil, Or.inl ⟨trivial, ?_⟩⟩
            rw [← skipNewlines_strip cs (si + 1), hs, stripNewlines_cons,
              if_neg (skipNewlines_head cs (si + 1) q qs hs), hq,
              ← skipNewlines_strip qs ((skipNewlines cs (si + 1)).2 + 1), hnil]
            rfl
          · simp [hq] at herr
      · simp only [h2, if_false, finishPadding] at herr ⊢
        have hnil : (skipNewlines cs (si + 1)).1 = [] := by
          by_contra hne
          simp [hne] at herr
        refine ⟨rfl, hnil, Or.inr ⟨by omega, ?_⟩⟩
        rw [← skipNewlines_strip cs (si + 1), hnil]
        rfl
  · simp [hp] at herr

end base64
end Sidecar

namespace Sidecar
namespace base64

theorem Shape_cons (c : Byte) (t : GoString) (j : Nat) (hc : rfc4648.inAlphabet c = true)
    (h : Shape t (j + 1)) : Shape (c :: t) j := by
  obtain ⟨h1, h2, h3⟩ := h
  refine ⟨?_, ?_, ?_⟩
  · intro x hx
    rcases List.mem_cons.1 hx with rfl | hx
    · exact Or.inl hc
    · exact h1 x hx
  · simp only [List.length_cons]; omega
  · simp [rfc4648.paddingWrong, h3, (inAlphabet_not_special c hc).2]

/-- Whenever the decoder, in the middle of a quantum at counter `j`, goes on to
finish without error, the remaining text without its newlines has the accepted
shape. -/
theorem accepted_shape (rest : GoString) :
    ∀ (j si : Nat) (dbuf : List Byte) (fuel : Nat) (dst : GoString),
      j < 4 → rest.length ≤ fuel + 1 →
      (decodeQuantumLoop rest si j dbuf).err = none →
      (decodeLoop fuel (decodeQuantumLoop rest si j dbuf).rest
        (decodeQuantumLoop rest si j dbuf).nsi
        (dst ++ (decodeQuantumLoop rest si j dbuf).out)).2 = none →
      Shape (stripNewlines rest) j := by
  induction rest with
  | nil =>
    intro j si dbuf fuel dst hj _ herr _
    by_cases h0 : j = 0
    · subst h0
      exact ⟨by simp [stripNewlines], by simp [stripNewlines], rfl⟩
    · simp [decodeQuantumLoop, Nat.not_le.mpr hj, h0] at herr
  | cons c cs ih =>
    intro j si dbuf fuel dst hj hlen herr hloop
    simp only [List.length_cons] at hlen
    by_cases hm : decodeMap c ≠ 0xff
    · have hA := (decodeMap_ne_iff c).1 hm
      rw [decodeQuantumLoop_sextet c cs si j dbuf hj hm] at herr hloop
      rw [stripNewlines_cons, if_neg (inAlphabet_not_special c hA).1]
      apply Shape_cons c _ j hA
      by_cases hj3 : j + 1 < 4
      · exact ih (j + 1) (si + 1) _ fuel dst hj3 (by omega) herr hloop
      · have hj4 : j + 1 = 4 := by omega
        rw [hj4] at herr hloop ⊢
        rw [decodeQuantumLoop_four] at hloop
        cases cs with
        | nil => exact ⟨by simp [stripNewlines], by simp [stripNewlines], rfl⟩
        | cons c1 cs1 =>
          obtain ⟨f, rfl⟩ : ∃ f, fuel = f + 1 := ⟨fuel - 1, by simp at hlen; omega⟩
          have hs := decodeLoop_step f c1 cs1 _ _ hloop
          have hshape := ih 0 (si + 1) [0, 0, 0, 0] f _ (by omega) (by simp at hlen ⊢; omega)
            hs.1 hs.2
          obtain ⟨h1, h2, h3⟩ := hshape
          exact ⟨h1, by omega, h3⟩
    · have hm1 : decodeMap c = 0xff := by simpa using hm
      by_cases hn : c = 10 ∨ c = 13
      · rw [decodeQuantumLoop_newline c cs si j dbuf hj hn] at herr hloop
        rw [stripNewlines_cons, if_pos hn]
        exact ih j (si + 1) dbuf fuel dst hj (by omega) herr hloop
      · obtain ⟨hc, _, hcase⟩ := decodeQuantumLoop_other c cs si j dbuf hj hm1 hn herr
        rw [stripNewlines_cons, if_neg hn, hc]
        rcases hcase with ⟨hj2, hs⟩ | ⟨hj3, hs⟩
        · rw [hs, hj2]
          exact ⟨by simp, by simp, by decide⟩
        · rw [hs, hj3]
          exact ⟨by simp, by simp, by decide⟩

/-- The decoder rejects every text that, without its newlines, is not valid padded
standard base64. -/
theorem DecodeString_rejects (s : GoString) (h : rfc4648.invalid (stripNewlines s) = true) :
    ∃ e, (DecodeString s).2 = some e := by
  cases hd : (DecodeString s).2 with
  | some e => exact ⟨e, rfl⟩
  | none =>
    exfalso
    have hshape : Shape (stripNewlines s) 0 := by
      cases s with
      | nil => exact ⟨by simp [stripNewlines], by simp [stripNewlines], rfl⟩
      | cons c cs =>
        have hs := decodeLoop_step cs.length c cs 0 [] (by simpa [DecodeString] using hd)
        exact accepted_shape (c :: cs) 0 0 [0, 0, 0, 0] cs.length _ (by omega) (by simp)
          hs.1 hs.2
    obtain ⟨h1, h2, h3⟩ := hshape
    simp only [rfc4648.invalid, Bool.or_eq_true, List.any_eq_true, Bool.and_eq_true,
      Bool.not_eq_true', decide_eq_true_eq] at h
    rcases h with (⟨x, hx, hxa, hxp⟩ | hl) | hp
    · rcases h1 x hx with ha | hp
      · rw [ha] at hxa; cases hxa
      · exact absurd hp (by simpa using hxp)
    · simp at hl; omega
    · rw [h3] at hp; cases hp

end base64
end Sidecar

namespace Sidecar
namespace base64

/-! ## The decoder accepts every valid text -/

theorem skipNewlines_nil_of_strip (cs : GoString) (si : Nat) (h : stripNewlines cs = []) :
    (skipNewlines cs si).1 = [] := by
  induction cs generalizing si with
  | nil => rfl
  | cons c cs ih =>
    by_cases hc : c = 10 ∨ c = 13
    · rw [stripNewlines_cons, if_pos hc] at h
      rw [skipNewlines, if_pos hc]
      exact ih (si + 1) h
    · rw [stripNewlines_cons, if_neg hc] at h
      cases h

theorem skipNewlines_cons_of_strip (cs : GoString) (si : Nat) (q : Byte) (t : GoString)
    (h : stripNewlines cs = q :: t) :
    ∃ qs, (skipNewlines cs si).1 = q :: qs ∧ stripNewlines qs = t := by
  induction cs generalizing si with
  | nil => cases h
  | cons c cs ih =>
    by_cases hc : c = 10 ∨ c = 13
    · rw [stripNewlines_cons, if_pos hc] at h
      rw [skipNewlines, if_pos hc]
      exact ih (si + 1) h
    · rw [stripNewlines_cons, if_neg hc] at h
      rw [skipNewlines, if_neg hc]
      cases h
      exact ⟨cs, rfl, rfl⟩

theorem paddingWrong_pad (t : GoString) (h : rfc4648.paddingWrong (61 :: t) = false) :
    t = [] ∨ t = [61] := by
  by_cases h1 : t = []
  · exact Or.inl h1
  · by_cases h2 : t = [61]
    · exact Or.inr h2
    · simp [rfc4648.paddingWrong, h1, h2] at h

theorem paddingWrong_tail (c : Byte) (t : GoString)
    (h : rfc4648.paddingWrong (c :: t) = false) : rfc4648.paddingWrong t = false := by
  simp only [rfc4648.paddingWrong, Bool.or_eq_false_iff] at h
  exact h.2

theorem decodeLoop_continue (fuel : Nat) (c : Byte) (cs : GoString) (si : Nat) (dst : GoString)
    (h1 : (decodeQuantum (c :: cs) si).err = none)
    (h2 : (decodeLoop fuel (decodeQuantum (c :: cs) si).rest (decodeQuantum (c :: cs) si).nsi
          (dst ++ (decodeQuantum (c :: cs) si).out)).2 = none) :
    (decodeLoop (fuel + 1) (c :: cs) si dst).2 = none := by
  rw [decodeLoop]
  simp only [h1]
  exact h2

/-- Whenever the remaining text without its newlines has the accepted shape, the
decoder, in the middle of a quantum at counter `j`, finishes without error. -/
theorem shape_accepted (rest : GoString) :
    ∀ (j si : Nat) (dbuf : List Byte) (fuel : Nat) (dst : GoString),
      j < 4 → rest.length ≤ fuel + 1 → Shape (stripNewlines rest) j →
      (decodeQuantumLoop rest si j dbuf).err = none
      ∧ (decodeLoop fuel (decodeQuantumLoop rest si j dbuf).rest
          (decodeQuantumLoop rest si j dbuf).nsi
          (dst ++ (decodeQuantumLoop rest si j dbuf).out)).2 = none := by
  induction rest with
  | nil =>
    intro j si dbuf fuel dst hj _ hs
    have h0 : j = 0 := by
      have := hs.2.1
      simp [stripNewlines] at this
      omega
    subst h0
    simp [decodeQuantumLoop, decodeLoop]
  | cons c cs ih =>
    intro j si dbuf fuel dst hj hlen hs
    simp only [List.length_cons] at hlen
    by_cases hn : c = 10 ∨ c = 13
    · rw [stripNewlines_cons, if_pos hn] at hs
      rw [decodeQuantumLoop_newline c cs si j dbuf hj hn]
      exact ih j (si + 1) dbuf fuel dst hj (by omega) hs
    · rw [stripNewlines_cons, if_neg hn] at hs
      obtain ⟨h1, h2, h3⟩ := hs
      simp only [List.length_cons] at h2
      rcases h1 c (List.mem_cons_self _ _) with hA | hP
      · have hm := (decodeMap_ne_iff c).2 hA
        have htail : ∀ k, (k + (stripNewlines cs).length) % 4 = 0 →
            Shape (stripNewlines cs) k := fun k hk =>
          ⟨fun x hx => h1 x (List.mem_cons_of_mem _ hx), hk, paddingWrong_tail c _ h3⟩
        rw [decodeQuantumLoop_sextet c cs si j dbuf hj hm]
        by_cases hj3 : j + 1 < 4
        · exact ih (j + 1) (si + 1) _ fuel dst hj3 (by omega) (htail (j + 1) (by omega))
        · have hj4 : j + 1 = 4 := by omega
          rw [hj4, decodeQuantumLoop_four]
          refine ⟨rfl, ?_⟩
          cases cs with
          | nil => simp [decodeLoop]
          | cons c1 cs1 =>
            obtain ⟨f, rfl⟩ : ∃ f, fuel = f + 1 := ⟨fuel - 1, by simp at hlen; omega⟩
            have hi := ih 0 (si + 1) [0, 0, 0, 0] f
              (dst ++ quantumBytes (dbuf.set j (decodeMap c)) 4) (by omega)
              (by simp at hlen ⊢; omega) (htail 0 (by omega))
            exact decodeLoop_continue f c1 cs1 _ _ hi.1 hi.2
      · subst hP
        have hm : decodeMap (61 : Byte) = 0xff := by decide
        have hp10 : ¬ ((61 : Byte) = 10) := by decide
        have hp13 : ¬ ((61 : Byte) = 13) := by decide
        rcases paddingWrong_pad _ h3 with ht | ht
        · have hj3 : j = 3 := by rw [ht] at h2; simp at h2; omega
          subst hj3
          have hnil := skipNewlines_nil_of_strip cs (si + 1) ht
          rw [decodeQuantumLoop]
          simp [hm, StdPadding, finishPadding, hnil, decodeLoop]
        · have hj2 : j = 2 := by rw [ht] at h2; simp at h2; omega
          subst hj2
          obtain ⟨qs, hq, hqs⟩ := skipNewlines_cons_of_strip cs (si + 1) 61 [] ht
          have hnil := skipNewlines_nil_of_strip qs ((skipNewlines cs (si + 1)).2 + 1) hqs
          rw [decodeQuantumLoop]
          simp [hm, StdPadding, finishPadding, hq, hnil, decodeLoop]

/-- The decoder accepts exactly the texts that, without their newlines, are valid
padded standard base64. -/
theorem DecodeString_accepts_iff (s : GoString) :
    (DecodeString s).2 = none ↔ rfc4648.invalid (stripNewlines s) = false := by
  constructor
  · intro h
    cases hi : rfc4648.invalid (stripNewlines s) with
    | false => rfl
    | true =>
      obtain ⟨e, he⟩ := DecodeString_rejects s hi
      rw [he] at h
      cases h
  · intro h
    simp only [rfc4648.invalid, Bool.or_eq_false_iff, List.any_eq_false, Bool.and_eq_true,
      Bool.not_eq_true', decide_eq_true_eq, not_and, decide_eq_false_iff_not,
      Decidable.not_not] at h
    obtain ⟨⟨hc, hl⟩, hp⟩ := h
    have hshape : Shape (stripNewlines s) 0 := by
      refine ⟨?_, by omega, hp⟩
      intro x hx
      cases hA : rfc4648.inAlphabet x with
      | true => exact Or.inl rfl
      | false => exact Or.inr (by simpa using hc x hx hA)
    cases s with
    | nil => rfl
    | cons c cs =>
      have hi := shape_accepted (c :: cs) 0 0 [0, 0, 0, 0] cs.length [] (by omega) (by simp)
        hshape
      exact decodeLoop_continue cs.length c cs 0 [] hi.1 hi.2

end base64
end Sidecar

namespace Sidecar

/-! ## The encoder -/

namespace json

theorem appendStringLoop_safe (s : GoString) (h : ∀ c ∈ s, htmlSafeSet c = true) :
    appendStringLoop s 0 true = s := by
  induction s with
  | nil => rfl
  | cons b bs ih =>
    have hb := h b (List.mem_cons_self _ _)
    have hlt : b.val < utf8.RuneSelf := by
      simp only [htmlSafeSet, decide_eq_true_eq] at hb
      simp only [utf8.RuneSelf]; omega
    rw [appendStringLoop]
    simp only [hlt, if_true, hb]
    rw [ih (fun c hc => h c (List.mem_cons_of_mem _ hc))]

theorem appendString_safe (s : GoString) (h : ∀ c ∈ s, htmlSafeSet c = true) :
    appendString [] s = [0x22] ++ s ++ [0x22] := by
  simp [appendString, appendStringLoop_safe s h]

theorem Marshal_success (result : GoString) :
    Marshal ⟨true, result, []⟩
      = Sidecar.utf8 "\x7b\"success\":true,\"result\":" ++ appendString [] result
        ++ Sidecar.utf8 "\x7d" := by
  have e1 : (0x7B : Byte) :: (Sidecar.utf8 "\"" ++ Sidecar.utf8 "success" ++ Sidecar.utf8 "\":"
      ++ Sidecar.utf8 "true") ++ (0x2C : Byte) :: (Sidecar.utf8 "\"" ++ Sidecar.utf8 "result"
      ++ Sidecar.utf8 "\":") = Sidecar.utf8 "\x7b\"success\":true,\"result\":" := by decide
  have e2 : Sidecar.utf8 "\x7d" = [0x7D] := by decide
  rw [← e1, e2]
  simp [Marshal, emitted, fields, isEmptyValue, encodeFields, encodeValue]

theorem Marshal_failure (msg : GoString) (h : msg ≠ []) :
    Marshal ⟨false, [], msg⟩
      = Sidecar.utf8 "\x7b\"success\":false,\"result\":\"\",\"error\":" ++ appendString [] msg
        ++ Sidecar.utf8 "\x7d" := by
  have e1 : (0x7B : Byte) :: (Sidecar.utf8 "\"" ++ Sidecar.utf8 "success" ++ Sidecar.utf8 "\":"
      ++ Sidecar.utf8 "false") ++ (0x2C : Byte) :: (Sidecar.utf8 "\"" ++ Sidecar.utf8 "result"
      ++ Sidecar.utf8 "\":" ++ appendString [] []) ++ (0x2C : Byte) :: (Sidecar.utf8 "\""
      ++ Sidecar.utf8 "error" ++ Sidecar.utf8 "\":")
      = Sidecar.utf8 "\x7b\"success\":false,\"result\":\"\",\"error\":" := by decide
  have e2 : Sidecar.utf8 "\x7d" = [0x7D] := by decide
  rw [← e1, e2]
  cases msg with
  | nil => exact absurd rfl h
  | cons c cs => simp [Marshal, emitted, fields, isEmptyValue, encodeFields, encodeValue]

theorem keys_success (result : GoString) :
    keys ⟨true, result, []⟩ = ["success", "result"] := by
  rfl

theorem keys_failure (result msg : GoString) (h : msg ≠ []) :
    keys ⟨false, result, msg⟩ = ["success", "result", "error"] := by
  cases msg with
  | nil => exact absurd rfl h
  | cons c cs => rfl

end json

end Sidecar

namespace Sidecar
namespace base64

/-! ## The encoder against the reference -/

set_option maxRecDepth 100000 in
theorem encode_table (i : Nat) (h : i < 64) :
    encode i = rfc4648.alphabetChar i ∧ json.htmlSafeSet (encode i) = true := by
  have key : ∀ k : Fin 64, encode k.val = rfc4648.alphabetChar k.val
      ∧ json.htmlSafeSet (encode k.val) = true := by decide
  exact key ⟨i, h⟩

theorem EncodeToString_eq_reference (d : GoString) : EncodeToString d = rfc4648.encode d := by
  induction d using EncodeToString.induct with
  | case1 => rfl
  | case2 s0 =>
    have hs := sextets1 s0
    have h0 := s0.isLt
    simp only [EncodeToString, rfc4648.encode, hs.1, hs.2]
    rw [(encode_table _ (by omega)).1, (encode_table _ (by omega)).1]
    have e1 : s0.val * 16 / 64 = s0.val / 4 := by omega
    have e2 : s0.val * 16 % 64 = s0.val % 4 * 16 := by omega
    rw [e1, e2]
    rfl
  | case3 s0 s1 =>
    have hs := sextets2 s0 s1
    have h0 := s0.isLt
    have h1 := s1.isLt
    simp only [EncodeToString, rfc4648.encode, hs.1, hs.2.1, hs.2.2]
    rw [(encode_table _ (by omega)).1, (encode_table _ (by omega)).1,
      (encode_table _ (by omega)).1]
    have e1 : (s0.val * 256 + s1.val) * 4 / 4096 = s0.val / 4 := by omega
    have e2 : (s0.val * 256 + s1.val) * 4 / 64 % 64 = s0.val % 4 * 16 + s1.val / 16 := by omega
    have e3 : (s0.val * 256 + s1.val) * 4 % 64 = s1.val % 16 * 4 := by omega
    rw [e1, e2, e3]
    rfl
  | case4 s0 s1 s2 rest ih =>
    have hs := sextets3 s0 s1 s2
    have h0 := s0.isLt
    have h1 := s1.isLt
    have h2 := s2.isLt
    simp only [EncodeToString, rfc4648.encode, hs.1, hs.2.1, hs.2.2.1, hs.2.2.2, ih]
    rw [(encode_table _ (by omega)).1, (encode_table _ (by omega)).1,
      (encode_table _ (by omega)).1, (encode_table _ (by omega)).1]
    have e1 : (s0.val * 65536 + s1.val * 256 + s2.val) / 262144 = s0.val / 4 := by omega
    have e2 : (s0.val * 65536 + s1.val * 256 + s2.val) / 4096 % 64
        = s0.val % 4 * 16 + s1.val / 16 := by omega
    have e3 : (s0.val * 65536 + s1.val * 256 + s2.val) / 64 % 64
        = s1.val % 16 * 4 + s2.val / 64 := by omega
    have e4 : (s0.val * 65536 + s1.val * 256 + s2.val) % 64 = s2.val % 64 := by omega
    rw [e1, e2, e3, e4]

theorem EncodeToString_safe (d : GoString) :
    ∀ c ∈ EncodeToString d, json.htmlSafeSet c = true := by
  have hp : json.htmlSafeSet StdPadding = true := by decide
  induction d using EncodeToString.induct with
  | case1 => intro c hc; simp [EncodeToString] at hc
  | case2 s0 =>
    intro c hc
    simp only [EncodeToString, List.mem_cons, List.mem_singleton, List.not_mem_nil,
      or_false] at hc
    rcases hc with rfl | rfl | rfl | rfl
    · exact (encode_table _ (sextet_lt _)).2
    · exact (encode_table _ (sextet_lt _)).2
    · exact hp
    · exact hp
  | case3 s0 s1 =>
    intro c hc
    simp only [EncodeToString, List.mem_cons, List.mem_singleton, List.not_mem_nil,
      or_false] at hc
    rcases hc with rfl | rfl | rfl | rfl
    · exact (encode_table _ (sextet_lt _)).2
    · exact (encode_table _ (sextet_lt _)).2
    · exact (encode_table _ (sextet_lt _)).2
    · exact hp
  | case4 s0 s1 s2 rest ih =>
    intro c hc
    simp only [EncodeToString, List.mem_cons, List.mem_append, List.mem_singleton,
      List.not_mem_nil, or_false] at hc
    rcases hc with (rfl | rfl | rfl | rfl) | hc
    · exact (encode_table _ (sextet_lt _)).2
    · exact (encode_table _ (sextet_lt _)).2
    · exact (encode_table _ (sextet_lt _)).2
    · exact (encode_table _ (sextet_lt _)).2
    · exact ih c hc

end base64
end Sidecar

namespace Sidecar

/-! ## The paths of `main` -/

theorem action_ne : utf8 "base64_decode" ≠ utf8 "base64_encode" := by decide

theorem main_parse_error (e : GoString) (out : Stdout) :
    main (.error e) out = out ++ [⟨false, [], utf8 "解析请求失败: " ++ e⟩] := rfl

theorem main_encode (d : GoString) (out : Stdout) :
    main (.ok ⟨utf8 "base64_encode", d⟩) out
      = out ++ [⟨true, base64.EncodeToString d, []⟩] := by
  simp [main, dispatch, sendSuccess]

theorem main_decode_ok (d r : GoString) (out : Stdout)
    (h : base64.DecodeString d = (r, none)) :
    main (.ok ⟨utf8 "base64_decode", d⟩) out = out ++ [⟨true, r, []⟩] := by
  simp [main, dispatch, sendSuccess, action_ne, h]

theorem main_decode_err (d r : GoString) (e : base64.CorruptInputError) (out : Stdout)
    (h : base64.DecodeString d = (r, some e)) :
    main (.ok ⟨utf8 "base64_decode", d⟩) out = out ++ [⟨false, [], e.Error⟩] := by
  simp [main, dispatch, sendError, action_ne, h]

theorem main_unknown (a d : GoString) (out : Stdout)
    (h1 : a ≠ utf8 "base64_encode") (h2 : a ≠ utf8 "base64_decode") :
    main (.ok ⟨a, d⟩) out = out ++ [⟨false, [], utf8 "未知操作: " ++ a⟩] := by
  simp [main, dispatch, sendError, h1, h2]

theorem Error_ne_nil (e : base64.CorruptInputError) : e.Error ≠ [] := by
  have h : utf8 "illegal base64 data at input byte " ≠ [] := by decide
  intro hnil
  exact h (List.append_eq_nil.1 hnil).1

theorem parse_message_ne_nil (e : GoString) : utf8 "解析请求失败: " ++ e ≠ [] := by
  have h : utf8 "解析请求失败: " ≠ [] := by decide
  intro hnil
  exact h (List.append_eq_nil.1 hnil).1

theorem unknown_message_ne_nil (a : GoString) : utf8 "未知操作: " ++ a ≠ [] := by
  have h : utf8 "未知操作: " ≠ [] := by decide
  intro hnil
  exact h (List.append_eq_nil.1 hnil).1

/-- Every run appends exactly one response, the same whatever was written before: a
success response with an empty error, or a failure response with an empty result and
a non-empty message. -/
theorem main_cases (input : Except GoString Request) :
    (∃ r, ∀ out, main input out = out ++ [⟨true, r, []⟩])
      ∨ (∃ msg, msg ≠ [] ∧ ∀ out, main input out = out ++ [⟨false, [], msg⟩]) := by
  cases input with
  | error e => exact Or.inr ⟨_, parse_message_ne_nil e, fun out => main_parse_error e out⟩
  | ok req =>
    obtain ⟨a, d⟩ := req
    by_cases h1 : a = utf8 "base64_encode"
    · subst h1
      exact Or.inl ⟨_, fun out => main_encode d out⟩
    · by_cases h2 : a = utf8 "base64_decode"
      · subst h2
        cases hd : base64.DecodeString d with
        | mk r oe =>
          cases oe with
          | none => exact Or.inl ⟨r, fun out => main_decode_ok d r out hd⟩
          | some e =>
            exact Or.inr ⟨_, Error_ne_nil e, fun out => main_decode_err d r e out hd⟩
      · exact Or.inr ⟨_, unknown_message_ne_nil a, fun out => main_unknown a d out h1 h2⟩

theorem Encode_success (result : GoString) :
    json.Encode ⟨true, result, []⟩
      = utf8 "\x7b\"success\":true,\"result\":" ++ json.appendString [] result
        ++ utf8 "\x7d\n" := by
  have e : utf8 "\x7d\n" = utf8 "\x7d" ++ [0x0A] := by decide
  rw [json.Encode, json.Marshal_success, e]
  simp

theorem Encode_failure (msg : GoString) (h : msg ≠ []) :
    json.Encode ⟨false, [], msg⟩
      = utf8 "\x7b\"success\":false,\"result\":\"\",\"error\":" ++ json.appendString [] msg
        ++ utf8 "\x7d\n" := by
  have e : utf8 "\x7d\n" = utf8 "\x7d" ++ [0x0A] := by decide
  rw [json.Encode, json.Marshal_failure msg h, e]
  simp

theorem stdoutBytes_single (r : Response) : stdoutBytes [r] = json.Encode r := by
  simp [stdoutBytes]

end Sidecar

namespace Sidecar
namespace base64

/-! ## The iteration bound of `decodeLoop` is never reached -/

theorem skipNewlines_length (cs : GoString) (si : Nat) :
    (skipNewlines cs si).1.length ≤ cs.length := by
  induction cs generalizing si with
  | nil => simp [skipNewlines]
  | cons c cs ih =>
    by_cases h : c = 10 ∨ c = 13
    · rw [skipNewlines, if_pos h]
      exact Nat.le_succ_of_le (ih (si + 1))
    · rw [skipNewlines, if_neg h]

theorem finishPadding_length (cs : GoString) (si j : Nat) (dbuf : List Byte) :
    (finishPadding cs si j dbuf).rest.length ≤ cs.length :=
  skipNewlines_length cs si

theorem decodeQuantumLoop_length (rest : GoString) :
    ∀ (si j : Nat) (dbuf : List Byte),
      (decodeQuantumLoop rest si j dbuf).rest.length ≤ rest.length := by
  induction rest with
  | nil =>
    intro si j dbuf
    rw [decodeQuantumLoop]
    split
    · simp
    · split <;> simp
  | cons c cs ih =>
    intro si j dbuf
    rw [decodeQuantumLoop]
    simp only [List.length_cons]
    split
    · simp
    · split
      · exact Nat.le_succ_of_le (ih _ _ _)
      · split
        · exact Nat.le_succ_of_le (ih _ _ _)
        · split
          · simp
          · split
            · simp
            · split
              · split
                · simp
                · rename_i q qs hq
                  have hl := skipNewlines_length cs (si + 1)
                  rw [hq] at hl
                  simp only [List.length_cons] at hl
                  split
                  · simp only [List.length_cons]; omega
                  · have := finishPadding_length qs ((skipNewlines cs (si + 1)).2 + 1) j dbuf
                    omega
              · exact Nat.le_succ_of_le (finishPadding_length cs (si + 1) j dbuf)

/-- Every call of `decodeQuantum` on a non-empty input reads at least one byte. -/
theorem decodeQuantum_length (c : Byte) (cs : GoString) (si : Nat) :
    (decodeQuantum (c :: cs) si).rest.length ≤ cs.length := by
  unfold decodeQuantum
  rw [decodeQuantumLoop]
  simp only [show ¬ (4 ≤ 0) by omega, if_false]
  split
  · exact decodeQuantumLoop_length cs _ _ _
  · split
    · exact decodeQuantumLoop_length cs _ _ _
    · split
      · simp
      · simp

/-- Any two iteration bounds of at least the input length give the same result: the
loop of `Decode` ends by itself. -/
theorem decodeLoop_fuel (fuel1 : Nat) :
    ∀ (fuel2 : Nat) (rest : GoString) (si : Nat) (dst : GoString),
      rest.length ≤ fuel1 → rest.length ≤ fuel2 →
      decodeLoop fuel1 rest si dst = decodeLoop fuel2 rest si dst := by
  induction fuel1 with
  | zero =>
    intro fuel2 rest si dst h1 _
    have : rest = [] := List.length_eq_zero.1 (Nat.le_zero.1 h1)
    subst this
    simp [decodeLoop]
  | succ f ih =>
    intro fuel2 rest si dst h1 h2
    cases rest with
    | nil => simp [decodeLoop]
    | cons c cs =>
      obtain ⟨g, rfl⟩ : ∃ g, fuel2 = g + 1 := ⟨fuel2 - 1, by simp at h2; omega⟩
      simp only [List.length_cons] at h1 h2
      have hq := decodeQuantum_length c cs si
      simp only [decodeLoop]
      cases (decodeQuantum (c :: cs) si).err with
      | some e => rfl
      | none => exact ih g _ _ _ (by omega) (by omega)

end base64
end Sidecar

namespace Sidecar

/-! ## The claims -/

/-- C1: round trip through the handler.  For every byte sequence `b`, the request
`base64_encode` with data `b` writes a success response with some result `r`, and
the request `base64_decode` with data `r` writes a success response whose result
is exactly `b`; for `hello` the intermediate result is `aGVsbG8=`. -/
theorem handler_roundtrip (b : GoString) :
    (∃ r, main (.ok ⟨utf8 "base64_encode", b⟩) [] = [⟨true, r, []⟩]
      ∧ main (.ok ⟨utf8 "base64_decode", r⟩) [] = [⟨true, b, []⟩])
    ∧ main (.ok ⟨utf8 "base64_encode", utf8 "hello"⟩) [] = [⟨true, utf8 "aGVsbG8=", []⟩]
    ∧ main (.ok ⟨utf8 "base64_decode", utf8 "aGVsbG8="⟩) [] = [⟨true, utf8 "hello", []⟩]
    ∧ stdoutBytes (main (.ok ⟨utf8 "base64_decode", utf8 "aGVsbG8="⟩) [])
        = utf8 "\x7b\"success\":true,\"result\":\"hello\"\x7d\n" := by
  refine ⟨⟨base64.EncodeToString b, ?_, ?_⟩, ?_, ?_, ?_⟩
  · simpa using main_encode b []
  · simpa using main_decode_ok _ b [] (base64.DecodeString_EncodeToString b)
  · decide
  · decide
  · decide

/-- C2: for every data string `d` the request `base64_encode` writes a success
response whose result is the standard padded base64 encoding of `d`: it equals the
RFC 4648 reference encoding, its length is `4 * ceil(len(d) / 3)`, and the document
is the result between quotes in `"success":true,"result":`; for `hello` the result
is `aGVsbG8=`. -/
theorem encode_is_standard_base64 (d : GoString) :
    main (.ok ⟨utf8 "base64_encode", d⟩) [] = [⟨true, base64.EncodeToString d, []⟩]
    ∧ base64.EncodeToString d = rfc4648.encode d
    ∧ (base64.EncodeToString d).length = 4 * ((d.length + 2) / 3)
    ∧ stdoutBytes (main (.ok ⟨utf8 "base64_encode", d⟩) [])
        = utf8 "\x7b\"success\":true,\"result\":\"" ++ base64.EncodeToString d
          ++ utf8 "\"\x7d\n"
    ∧ base64.EncodeToString (utf8 "hello") = utf8 "aGVsbG8="
    ∧ stdoutBytes (main (.ok ⟨utf8 "base64_encode", utf8 "hello"⟩) [])
        = utf8 "\x7b\"success\":true,\"result\":\"aGVsbG8=\"\x7d\n" := by
  have hm : main (.ok ⟨utf8 "base64_encode", d⟩) [] = [⟨true, base64.EncodeToString d, []⟩] := by
    simpa using main_encode d []
  refine ⟨hm, base64.EncodeToString_eq_reference d, base64.EncodeToString_length d, ?_,
    by decide, by decide⟩
  rw [hm, stdoutBytes_single, Encode_success,
    json.appendString_safe _ (base64.EncodeToString_safe d)]
  have e1 : utf8 "\x7b\"success\":true,\"result\":\""
      = utf8 "\x7b\"success\":true,\"result\":" ++ [0x22] := by decide
  have e2 : utf8 "\"\x7d\n" = [0x22] ++ utf8 "\x7d\n" := by decide
  rw [e1, e2]
  simp

/-- C3 fails as stated: the failure response written for the unknown action `foo`
is serialized with both keys, an empty `result` and the `error`. -/
theorem failure_keeps_result_key :
    main (.ok ⟨utf8 "foo", utf8 "x"⟩) [] = [⟨false, [], utf8 "未知操作: foo"⟩]
    ∧ json.keys ⟨false, [], utf8 "未知操作: foo"⟩ = ["success", "result", "error"]
    ∧ stdoutBytes (main (.ok ⟨utf8 "foo", utf8 "x"⟩) [])
        = utf8 "\x7b\"success\":false,\"result\":\"\",\"error\":\"未知操作: foo\"\x7d\n" := by
  decide

/-- C3, amended: on every input the one response written is either a success
response, serialized with the keys `success` and `result` and no `error` key, or a
failure response with a non-empty message, serialized with the keys `success`,
`result` (the empty string) and `error`. -/
theorem serialized_keys (input : Except GoString Request) :
    ∃ r, main input [] = [r]
      ∧ ((r.Success = true ∧ json.keys r = ["success", "result"]
          ∧ json.Encode r = utf8 "\x7b\"success\":true,\"result\":"
              ++ json.appendString [] r.Result ++ utf8 "\x7d\n")
        ∨ (r.Success = false ∧ r.Error ≠ [] ∧ json.keys r = ["success", "result", "error"]
          ∧ json.Encode r = utf8 "\x7b\"success\":false,\"result\":\"\",\"error\":"
              ++ json.appendString [] r.Error ++ utf8 "\x7d\n")) := by
  rcases main_cases input with ⟨r, hr⟩ | ⟨msg, hne, hr⟩
  · exact ⟨_, by simpa using hr [], Or.inl ⟨rfl, json.keys_success r, Encode_success r⟩⟩
  · exact ⟨_, by simpa using hr [],
      Or.inr ⟨rfl, hne, json.keys_failure [] msg hne, Encode_failure msg hne⟩⟩

/-- C4 fails as stated: `aGVs`, a line feed, `bG8=` has a character outside the
alphabet and a length of 9, yet `base64_decode` succeeds on it with `hello`. -/
theorem decode_ignores_newlines :
    rfc4648.invalid (utf8 "aGVs\nbG8=") = true
    ∧ (utf8 "aGVs\nbG8=").length % 4 ≠ 0
    ∧ main (.ok ⟨utf8 "base64_decode", utf8 "aGVs\nbG8="⟩) [] = [⟨true, utf8 "hello", []⟩] := by
  decide

/-- C4, amended: for every data string that, once its carriage returns and line
feeds are removed, is not valid padded standard base64 (a character outside the
alphabet and `=`, a length not a multiple of 4, or wrong padding), `base64_decode`
writes a failure response with a non-empty error message and an empty result. -/
theorem decode_rejects_invalid (data : GoString)
    (h : rfc4648.invalid (stripNewlines data) = true) :
    ∃ e : base64.CorruptInputError,
      main (.ok ⟨utf8 "base64_decode", data⟩) [] = [⟨false, [], e.Error⟩] ∧ e.Error ≠ [] := by
  obtain ⟨e, he⟩ := base64.DecodeString_rejects data h
  refine ⟨e, ?_, Error_ne_nil e⟩
  have hd : base64.DecodeString data = ((base64.DecodeString data).1, some e) := by
    rw [← he]
  simpa using main_decode_err data _ e [] hd

/-- Witness for C4: the data `!!!not-base64!!!` is invalid and is rejected, with the
message `illegal base64 data at input byte 0`. -/
theorem decode_rejects_invalid_witness :
    rfc4648.invalid (stripNewlines (utf8 "!!!not-base64!!!")) = true
    ∧ (∃ e : base64.CorruptInputError,
        main (.ok ⟨utf8 "base64_decode", utf8 "!!!not-base64!!!"⟩) [] = [⟨false, [], e.Error⟩]
        ∧ e.Error ≠ [])
    ∧ main (.ok ⟨utf8 "base64_decode", utf8 "!!!not-base64!!!"⟩) []
        = [⟨false, [], utf8 "illegal base64 data at input byte 0"⟩] :=
  ⟨by decide, decode_rejects_invalid (utf8 "!!!not-base64!!!") (by decide), by decide⟩

/-- C5: for every request whose action is neither `base64_encode` nor
`base64_decode`, whatever its data, the response is a failure whose error message
contains the action as a substring. -/
theorem unknown_action_mentions_action (a d : GoString)
    (h1 : a ≠ utf8 "base64_encode") (h2 : a ≠ utf8 "base64_decode") :
    ∃ msg, main (.ok ⟨a, d⟩) [] = [⟨false, [], msg⟩] ∧ a <:+: msg := by
  refine ⟨utf8 "未知操作: " ++ a, by simpa using main_unknown a d [] h1 h2, ?_⟩
  exact ⟨utf8 "未知操作: ", [], by simp⟩

/-- Witness for C5: the action `foo` with data `x`, and the empty action. -/
theorem unknown_action_mentions_action_witness :
    (utf8 "foo" ≠ utf8 "base64_encode" ∧ utf8 "foo" ≠ utf8 "base64_decode"
      ∧ ∃ msg, main (.ok ⟨utf8 "foo", utf8 "x"⟩) [] = [⟨false, [], msg⟩] ∧ utf8 "foo" <:+: msg)
    ∧ (∃ msg, main (.ok ⟨[], utf8 "x"⟩) [] = [⟨false, [], msg⟩] ∧ [] <:+: msg) :=
  ⟨⟨by decide, by decide,
      unknown_action_mentions_action (utf8 "foo") (utf8 "x") (by decide) (by decide)⟩,
    unknown_action_mentions_action [] (utf8 "x") (by decide) (by decide)⟩

/-- C6 fails as stated: for the action `foo` the error message is not
`unknown action: foo`, and the document is not the one the claim gives. -/
theorem unknown_action_text_differs :
    (main (.ok ⟨utf8 "foo", utf8 "x"⟩) []).map Response.Error ≠ [utf8 "unknown action: foo"]
    ∧ stdoutBytes (main (.ok ⟨utf8 "foo", utf8 "x"⟩) [])
        ≠ utf8 "\x7b\"success\":false,\"error\":\"unknown action: foo\"\x7d\n" := by
  decide

/-- C6, amended: for every request whose action `a` is not one of the two
recognized values, the error message is exactly the text `未知操作: ` followed by
`a`, and the document has `success` false, an empty `result` and that message,
quoted, as `error`. -/
theorem unknown_action_message (a d : GoString)
    (h1 : a ≠ utf8 "base64_encode") (h2 : a ≠ utf8 "base64_decode") :
    main (.ok ⟨a, d⟩) [] = [⟨false, [], utf8 "未知操作: " ++ a⟩]
    ∧ stdoutBytes (main (.ok ⟨a, d⟩) [])
        = utf8 "\x7b\"success\":false,\"result\":\"\",\"error\":"
          ++ json.appendString [] (utf8 "未知操作: " ++ a) ++ utf8 "\x7d\n" := by
  have hm : main (.ok ⟨a, d⟩) [] = [⟨false, [], utf8 "未知操作: " ++ a⟩] := by
    simpa using main_unknown a d [] h1 h2
  refine ⟨hm, ?_⟩
  rw [hm, stdoutBytes_single, Encode_failure _ (unknown_message_ne_nil a)]

/-- Witness for C6: the action `foo`, with the document written out. -/
theorem unknown_action_message_witness :
    (utf8 "foo" ≠ utf8 "base64_encode" ∧ utf8 "foo" ≠ utf8 "base64_decode"
      ∧ main (.ok ⟨utf8 "foo", utf8 "x"⟩) [] = [⟨false, [], utf8 "未知操作: " ++ utf8 "foo"⟩]
      ∧ stdoutBytes (main (.ok ⟨utf8 "foo", utf8 "x"⟩) [])
          = utf8 "\x7b\"success\":false,\"result\":\"\",\"error\":"
            ++ json.appendString [] (utf8 "未知操作: " ++ utf8 "foo") ++ utf8 "\x7d\n")
    ∧ json.appendString [] (utf8 "未知操作: " ++ utf8 "foo") = utf8 "\"未知操作: foo\"" :=
  ⟨⟨by decide, by decide,
      unknown_action_message (utf8 "foo") (utf8 "x") (by decide) (by decide)⟩, by decide⟩

/-- C7 fails as stated: for the parse failure of the input `not json` the error
message is not `failed to parse request: ` followed by the detail. -/
theorem parse_error_text_differs :
    (main (.error (utf8 "invalid character 'o' in literal null (expecting 'u')")) []).map
        Response.Error
      ≠ [utf8 "failed to parse request: invalid character 'o' in literal null (expecting 'u')"]
    ∧ stdoutBytes (main (.error (utf8 "invalid character 'o' in literal null (expecting 'u')")) [])
      = utf8 ("\x7b\"success\":false,\"result\":\"\",\"error\":\"解析请求失败: "
          ++ "invalid character 'o' in literal null (expecting 'u')\"\x7d\n") := by
  decide

/-- C7, amended: whenever decoding standard input fails with detail `e`, the handler
writes exactly one response, the failure whose error is `解析请求失败: ` followed by
`e`, whatever was written before, and nothing else: no action is dispatched. -/
theorem parse_error_response (e : GoString) (out : Stdout) :
    main (.error e) out = out ++ [⟨false, [], utf8 "解析请求失败: " ++ e⟩]
    ∧ stdoutBytes (main (.error e) [])
        = utf8 "\x7b\"success\":false,\"result\":\"\",\"error\":"
          ++ json.appendString [] (utf8 "解析请求失败: " ++ e) ++ utf8 "\x7d\n" := by
  refine ⟨main_parse_error e out, ?_⟩
  rw [main_parse_error, List.nil_append, stdoutBytes_single,
    Encode_failure _ (parse_message_ne_nil e)]

/-- C8: on every input the handler returns having written exactly one response
document to standard output, and that document ends with a newline. -/
theorem exactly_one_document (input : Except GoString Request) (out : Stdout) :
    ∃ r, main input out = out ++ [r]
      ∧ (main input out).length = out.length + 1
      ∧ stdoutBytes (main input []) = json.Encode r
      ∧ (json.Encode r).getLast? = some 0x0A := by
  have hlast : ∀ r, (json.Encode r).getLast? = some 0x0A := by
    intro r; simp [json.Encode]
  rcases main_cases input with ⟨r, hr⟩ | ⟨msg, _, hr⟩
  · exact ⟨_, hr out, by simp [hr out], by rw [hr [], List.nil_append, stdoutBytes_single],
      hlast _⟩
  · exact ⟨_, hr out, by simp [hr out], by rw [hr [], List.nil_append, stdoutBytes_single],
      hlast _⟩

/-- C9: the request `base64_encode` with empty data writes the success response with
the empty string as result, serialized with the `result` key present and empty. -/
theorem encode_empty_data :
    main (.ok ⟨utf8 "base64_encode", utf8 ""⟩) [] = [⟨true, [], []⟩]
    ∧ json.keys ⟨true, [], []⟩ = ["success", "result"]
    ∧ stdoutBytes (main (.ok ⟨utf8 "base64_encode", utf8 ""⟩) [])
        = utf8 "\x7b\"success\":true,\"result\":\"\"\x7d\n" := by
  decide

/-- C10: for every successfully parsed request the one response written has success
true if and only if the action is `base64_encode`, or the action is `base64_decode`
and the decoder accepts the data; `base64_encode` never fails; a success response has
an empty error field and a failure response an empty result field. -/
theorem success_characterisation (req : Request) :
    ∃ r, main (.ok req) [] = [r]
      ∧ (r.Success = true ↔ (req.Action = utf8 "base64_encode"
          ∨ (req.Action = utf8 "base64_decode" ∧ (base64.DecodeString req.Data).2 = none)))
      ∧ (req.Action = utf8 "base64_encode" → r.Success = true)
      ∧ (r.Success = true → r.Error = [])
      ∧ (r.Success = false → r.Result = []) := by
  obtain ⟨a, d⟩ := req
  by_cases h1 : a = utf8 "base64_encode"
  · subst h1
    exact ⟨_, by simpa using main_encode d [], by simp, by simp, by simp, by simp⟩
  · by_cases h2 : a = utf8 "base64_decode"
    · subst h2
      cases hd : base64.DecodeString d with
      | mk r oe =>
        cases oe with
        | none =>
          exact ⟨_, by simpa using main_decode_ok d r [] hd, by simp [hd], by simp, by simp,
            by simp⟩
        | some e =>
          exact ⟨_, by simpa using main_decode_err d r e [] hd, by simp [hd, action_ne],
            by simp [action_ne], by simp, by simp⟩
    · exact ⟨_, by simpa using main_unknown a d [] h1 h2, by simp [h1, h2], by simp [h1],
        by simp, by simp⟩

end Sidecar
